import Mathlib

/-!
Verification of the clustering / matrix-alignment core of the
bolivia_estructura repository.

The definitions below are a shallow embedding of the TypeScript source:
`src/app/src/hooks/useDendrogram.ts` (buildTree, assignClusters),
`src/App.tsx` (detectMatrixLayout, parseScoreValue, parseScoreMatrix,
alignNumericMatrixByLabels, alignTextMatrixByLabels),
`src/app/src/lib/explanation.ts` (cleanUnitName, normalizeText,
inferUnitsFromCatalog, extractUnitsFromExplanation,
getPairLabelsFromExplanation) and the DataLoader validation.

Numbers (JS doubles) are embedded as rationals; a numeric matrix cell is
`Option Rat`, where `none` stands for the JS NaN missing sentinel.
JS runtime exceptions are embedded as `Except.error`.
-/

/-- One row of the linkage array: `[left, right, distance, count]`. -/
structure LinkStep where
  left : Nat
  right : Nat
  distance : Rat
  count : Nat
deriving DecidableEq, Repr

/-- The tree built by `buildTree`.  A leaf carries `id`, `name`, optional
`content` (and, in the source, `distance = 0`, `count = 1`, no children);
an internal node carries `id`, `distance`, `count` and exactly the two
merged children. -/
inductive TreeNode where
  | leaf (id : Nat) (name : String) (content : Option String)
  | node (id : Nat) (distance : Rat) (count : Nat) (left right : TreeNode)
deriving DecidableEq, Repr

/-- The `count` field of a node (a leaf has `count = 1` in the source). -/
def TreeNode.countField : TreeNode → Nat
  | .leaf _ _ _ => 1
  | .node _ _ c _ _ => c

/-- Leaf ids of a tree, in left-to-right order. -/
def leafIdsT : TreeNode → List Nat
  | .leaf i _ _ => [i]
  | .node _ _ _ l r => leafIdsT l ++ leafIdsT r

/-- Number of leaf positions reachable from the root. -/
def leafCountT (t : TreeNode) : Nat := (leafIdsT t).length

/-- Number of internal-node positions reachable from the root. -/
def internalCountT : TreeNode → Nat
  | .leaf _ _ _ => 0
  | .node _ _ _ l r => internalCountT l + internalCountT r + 1

/-- The `n` leaves `buildTree` creates from `labels` (and optional
`contents`), keyed by index. -/
def initialNodes (labels : List String) (contents : Option (List String)) : List TreeNode :=
  (List.range labels.length).map fun i =>
    .leaf i (labels.getD i "") (contents.bind fun cs => cs.get? i)

/-- The merge loop of `buildTree`.  The node map is embedded as a list
indexed by id (keys are exactly `0 .. nodes.length - 1`, and each step
appends the fresh id `n + i = nodes.length`).  A lookup of an absent id
makes the source crash with a TypeError when it sets
`leftNode.parent = newNode` on `undefined`; that crash is embedded as
`Except.error`. -/
def buildTreeGo : List TreeNode → List LinkStep → Except String (List TreeNode)
  | nodes, [] => .ok nodes
  | nodes, s :: rest =>
    match nodes.get? s.left, nodes.get? s.right with
    | some l, some r =>
        buildTreeGo (nodes ++ [.node nodes.length s.distance s.count l r]) rest
    | _, _ => .error "TypeError: cannot set parent of undefined node"

/-- `buildTree(linkage, labels, contents)` from `useDendrogram.ts`:
build the leaves, fold the linkage, return the node keyed at
`n + linkage.length - 1`.  An absent final key (only possible for
`labels = []` and `linkage = []`) yields the undefined root of the
source, embedded as an error. -/
def buildTree (linkage : List LinkStep) (labels : List String)
    (contents : Option (List String)) : Except String TreeNode :=
  match buildTreeGo (initialNodes labels contents) linkage with
  | .error e => .error e
  | .ok nodes =>
    match nodes.get? (labels.length + linkage.length - 1) with
    | some t => .ok t
    | none => .error "TypeError: undefined root"

/-- A tree annotated with the `clusterId` written by `assignClusters`.
The source mutates `clusterId` in place; the embedding returns a fresh
annotated tree.  Internal nodes above every cluster root are never
assigned, hence `Option Nat` (`none` = the field is left undefined). -/
inductive ATree where
  | leaf (id : Nat) (name : String) (content : Option String) (clusterId : Option Nat)
  | node (id : Nat) (distance : Rat) (count : Nat) (clusterId : Option Nat)
      (left right : ATree)
deriving DecidableEq, Repr

/-- The clusterId written at the root of an annotated subtree. -/
def cidOf : ATree → Option Nat
  | .leaf _ _ _ c => c
  | .node _ _ _ c _ _ => c

/-- `assignToAllDescendants`: give the whole subtree cluster id `c`. -/
def assignAll : TreeNode → Nat → ATree
  | .leaf i nm ct, c => .leaf i nm ct (some c)
  | .node i d k l r, c => .node i d k (some c) (assignAll l c) (assignAll r c)

/-- The `traverse` recursion of `assignClusters`: a node is a cluster
root iff it is a leaf or its distance is `≤ threshold`; a cluster root
gets the next id on its whole subtree, otherwise both children are
traversed in order.  Returns the annotated tree and the next unused id. -/
def assignGo (thr : Rat) : TreeNode → Nat → ATree × Nat
  | .leaf i nm ct, next => (.leaf i nm ct (some next), next + 1)
  | .node i d k l r, next =>
    if d ≤ thr then (assignAll (.node i d k l r) next, next + 1)
    else
      let pl := assignGo thr l next
      let pr := assignGo thr r pl.2
      (.node i d k none pl.1 pr.1, pr.2)

/-- `assignClusters(root, threshold)`: annotate from id 0 and return the
cluster count together with the annotated tree (the embedding of the
mutation). -/
def assignClusters (root : TreeNode) (thr : Rat) : ATree × Nat :=
  assignGo thr root 0

/-- All subtree occurrences of an annotated tree, in pre-order.  A node
of the value tree is identified with the subtree rooted there. -/
def preorderA : ATree → List ATree
  | .leaf i nm ct c => [.leaf i nm ct c]
  | .node i d k c l r => .node i d k c l r :: (preorderA l ++ preorderA r)

/-- The clusterIds on the leaves, in left-to-right order. -/
def leafCids : ATree → List (Option Nat)
  | .leaf _ _ _ c => [c]
  | .node _ _ _ _ l r => leafCids l ++ leafCids r

/-- Distances of the internal nodes of a tree. -/
def distancesOf : TreeNode → List Rat
  | .leaf _ _ _ => []
  | .node _ d _ l r => d :: (distancesOf l ++ distancesOf r)

/-- The whitespace class of the JS string functions used by the source
(`trim`, regex `\s`); the rarely used Unicode space characters are not
modelled. -/
def isJsSpace (c : Char) : Bool :=
  c = ' ' || c = '\t' || c = '\n' || c = '\r' || c = Char.ofNat 11 || c = Char.ofNat 12

/-- Strip a trailing run of characters satisfying `p`. -/
def dropTrailing (p : Char → Bool) (l : List Char) : List Char :=
  (l.reverse.dropWhile p).reverse

/-- JS `String.prototype.trim`. -/
def jsTrim (s : String) : String :=
  String.mk (dropTrailing isJsSpace (s.data.dropWhile isJsSpace))

/-- `normalizeLabel` from `App.tsx`: `value?.trim() ?? ''`. -/
def normalizeLabel (v : Option String) : String :=
  ((v.map jsTrim).getD "")

/-- Lookup in a JS `Map` built with `new Map(entries)`: the constructor
calls `set` for each entry in order, so for a duplicated key the LAST
entry wins. -/
def jsMapGet {α : Type} (entries : List (String × α)) (k : String) : Option α :=
  ((entries.filter fun e => e.1 == k).getLast?).map Prod.snd

/-- The `indexByLabel` map built by both matrix aligners:
`new Map(sourceLabels.map((label, idx) => [normalizeLabel(label), idx]))`. -/
def alignIndexMap (sourceLabels : List String) : String → Option Nat :=
  jsMapGet (sourceLabels.enum.map fun p => (jsTrim p.2, p.1))

/-- `alignNumericMatrixByLabels` from `App.tsx`.  A cell is `Option Rat`
(`none` = NaN); `Number.isFinite(value) ? value : NaN` with an
out-of-bounds access producing `undefined`, hence NaN. -/
def alignNumericMatrixByLabels (sourceLabels : List String)
    (sourceMatrix : List (List (Option Rat))) (targetLabels : List String) :
    List (List (Option Rat)) :=
  targetLabels.map fun rowLabel =>
    targetLabels.map fun colLabel =>
      match alignIndexMap sourceLabels (jsTrim rowLabel),
            alignIndexMap sourceLabels (jsTrim colLabel) with
      | some rowIdx, some colIdx =>
          match (sourceMatrix.get? rowIdx).bind fun row => row.get? colIdx with
          | some v => v
          | none => none
      | _, _ => none

/-- `alignTextMatrixByLabels` from `App.tsx`:
`sourceMatrix[rowIdx]?.[colIdx] ?? ''`. -/
def alignTextMatrixByLabels (sourceLabels : List String)
    (sourceMatrix : List (List String)) (targetLabels : List String) :
    List (List String) :=
  targetLabels.map fun rowLabel =>
    targetLabels.map fun colLabel =>
      match alignIndexMap sourceLabels (jsTrim rowLabel),
            alignIndexMap sourceLabels (jsTrim colLabel) with
      | some rowIdx, some colIdx =>
          ((sourceMatrix.get? rowIdx).bind fun row => row.get? colIdx).getD ""
      | _, _ => ""

/-- The `MatrixLayout` record detected by `detectMatrixLayout`. -/
structure MatrixLayout where
  labels : List String
  dataRows : List (List String)
  rowLabelColumn : Nat
  firstDataColumn : Nat
deriving DecidableEq, Repr

/-- The scanning loop of `detectMatrixLayout` over the first data row,
starting at column `colIdx`: skip cells that are empty after trimming;
at the first cell whose trimmed value occurs (trimmed) in the header,
return that column index together with the `findIndex` result on the
header. -/
def scanForLabelColumn (header : List String) : List String → Nat → Option (Nat × Nat)
  | [], _ => none
  | cell :: rest, colIdx =>
    let candidate := jsTrim cell
    if candidate = "" then scanForLabelColumn header rest (colIdx + 1)
    else
      match header.findIdx? fun v => jsTrim v == candidate with
      | some headerIdx => some (colIdx, headerIdx)
      | none => scanForLabelColumn header rest (colIdx + 1)

/-- `detectMatrixLayout` from `App.tsx`. -/
def detectMatrixLayout (rows : List (List String)) : MatrixLayout :=
  let header := rows.headD []
  let dataRows := (rows.drop 1).filter fun row => row.length > 0
  let defaultFirstData : Nat :=
    match header.head? with
    | some h0 => if jsTrim h0 = "" then 1 else 0
    | none => 0
  let scanned : Option (Nat × Nat) :=
    match dataRows.head? with
    | some firstDataRow => scanForLabelColumn header firstDataRow 0
    | none => none
  let rowLabelColumn := (scanned.map Prod.fst).getD 0
  let firstDataColumn := (scanned.map Prod.snd).getD defaultFirstData
  { labels := (header.drop firstDataColumn).map jsTrim
    dataRows := dataRows
    rowLabelColumn := rowLabelColumn
    firstDataColumn := firstDataColumn }

/-- Decimal-literal part of the JS `Number(...)` conversion, on an
already trimmed, non-empty string: optional sign, then digits with an
optional fraction and an optional exponent.  Inputs that are valid for
JS `Number` but denote no finite decimal (hex literals, `Infinity`)
either fail here or are non-finite in JS; both end up as the missing
sentinel `none` in `parseScoreValue`, which is the only consumer. -/
def parseJsNumber (s : String) : Option Rat :=
  let parseNatDigits : List Char → Option (Nat × List Char) := fun cs =>
    let ds := cs.takeWhile Char.isDigit
    if ds.isEmpty then none
    else some (ds.foldl (fun a c => a * 10 + (c.toNat - 48)) 0, cs.drop ds.length)
  let core : List Char → Option (Rat × List Char) := fun cs =>
    let intDs := cs.takeWhile Char.isDigit
    let afterInt := cs.drop intDs.length
    let intVal : Nat := intDs.foldl (fun a c => a * 10 + (c.toNat - 48)) 0
    match afterInt with
    | '.' :: cs1 =>
      let fracDs := cs1.takeWhile Char.isDigit
      if intDs.isEmpty && fracDs.isEmpty then none
      else
        let fracVal : Nat := fracDs.foldl (fun a c => a * 10 + (c.toNat - 48)) 0
        some ((intVal : Rat) + (fracVal : Rat) / ((10 : Rat) ^ fracDs.length),
              cs1.drop fracDs.length)
    | _ => if intDs.isEmpty then none else some ((intVal : Rat), afterInt)
  let withExp : Rat → List Char → Option Rat := fun v cs =>
    match cs with
    | [] => some v
    | e :: cs1 =>
      if e = 'e' || e = 'E' then
        let signedExp : Option (Int × List Char) :=
          match cs1 with
          | '+' :: cs2 => (parseNatDigits cs2).map fun p => ((p.1 : Int), p.2)
          | '-' :: cs2 => (parseNatDigits cs2).map fun p => (-(p.1 : Int), p.2)
          | _ => (parseNatDigits cs1).map fun p => ((p.1 : Int), p.2)
        match signedExp with
        | some (ex, []) => some (v * (10 : Rat) ^ ex)
        | _ => none
      else none
  match s.data with
  | '+' :: cs => (core cs).bind fun p => withExp p.1 p.2
  | '-' :: cs => (core cs).bind fun p => withExp (-p.1) p.2
  | cs => (core cs).bind fun p => withExp p.1 p.2

/-- Replace the first comma (JS `raw.replace(',', '.')` with a string
pattern replaces only the first occurrence). -/
def replaceFirstComma : List Char → List Char
  | [] => []
  | c :: cs => if c = ',' then '.' :: cs else c :: replaceFirstComma cs

/-- `parseScoreValue` from `App.tsx`: trim (an undefined cell becomes
`''`), empty means missing, a comma decimal separator becomes a period,
non-finite results are missing. -/
def parseScoreValue (rawValue : Option String) : Option Rat :=
  let raw := normalizeLabel rawValue
  if raw = "" then none
  else
    let withDot := if raw.data.contains ',' then String.mk (replaceFirstComma raw.data) else raw
    parseJsNumber withDot

/-- The `rowByLabel` map of the non-aligned branch of the matrix
parsers: `new Map(dataRows.map((row) => [normalizeLabel(row[rowLabelColumn]), row]))`. -/
def rowByLabelMap (dataRows : List (List String)) (rowLabelColumn : Nat) :
    String → Option (List String) :=
  jsMapGet (dataRows.map fun row => (normalizeLabel (row.get? rowLabelColumn), row))

/-- `parseScoreMatrix` from `App.tsx`, taken from the tokenized rows
onward (the d3 row tokenizer is an excluded collaborator, spec section 6). -/
def parseScoreMatrixRows (rows : List (List String)) :
    List String × List (List (Option Rat)) :=
  let L := detectMatrixLayout rows
  let labels := L.labels
  let isAlignedByOrder :=
    decide (labels.length ≤ L.dataRows.length) &&
      (labels.enum.all fun p =>
        normalizeLabel ((L.dataRows.get? p.1).bind fun row => row.get? L.rowLabelColumn) == p.2)
  let matrix :=
    if isAlignedByOrder then
      labels.enum.map fun p =>
        let row := (L.dataRows.get? p.1).getD []
        labels.enum.map fun q => parseScoreValue (row.get? (L.firstDataColumn + q.1))
    else
      labels.map fun label =>
        let rowValues := rowByLabelMap L.dataRows L.rowLabelColumn label
        labels.enum.map fun q =>
          parseScoreValue (rowValues.bind fun row => row.get? (L.firstDataColumn + q.1))
  (labels, matrix)

/-- The pair of unit names recovered from an explanation cell. -/
structure ExplanationUnits where
  unit1 : String
  unit2 : String
deriving DecidableEq, Repr

/-- The `{rowLabel, colLabel}` record returned by
`getPairLabelsFromExplanation`. -/
structure PairLabels where
  rowLabel : String
  colLabel : String
deriving DecidableEq, Repr

/-- The quote characters stripped by `cleanUnitName`
(double quote, apostrophe, backquote). -/
def isQuoteChar (c : Char) : Bool :=
  c = '"' || c = Char.ofNat 39 || c = Char.ofNat 96

/-- Collapse every maximal whitespace run to a single space
(the regex replace of `\s+` by a space). -/
def collapseWsGo : Bool → List Char → List Char
  | _, [] => []
  | prevSpace, c :: cs =>
    if isJsSpace c then
      if prevSpace then collapseWsGo true cs else ' ' :: collapseWsGo true cs
    else c :: collapseWsGo false cs

/-- `cleanUnitName` from `explanation.ts`: trim, strip the leading and
trailing quote runs, collapse internal whitespace. -/
def cleanUnitName (value : String) : String :=
  String.mk (collapseWsGo false
    (dropTrailing isQuoteChar ((jsTrim value).data.dropWhile isQuoteChar)))

/-- The capture character class `[^\n|.;]` of the marker regexes. -/
def captureClass (c : Char) : Bool :=
  !(c = '\n' || c = '|' || c = '.' || c = ';')

/-- Greedy capture `([^\n|.;]+)` starting exactly at offset `k`. -/
def capAt (cs : List Char) (k : Nat) : Option (List Char) :=
  match cs.drop k with
  | c :: rest => if captureClass c then some (c :: rest.takeWhile captureClass) else none
  | [] => none

/-- Backtracking of the greedy `\s*` before the capture: try the longest
whitespace prefix first, then give characters back one at a time. -/
def capTry (cs : List Char) : Nat → Option (List Char)
  | 0 => capAt cs 0
  | k + 1 =>
    match capAt cs (k + 1) with
    | some cap => some cap
    | none => capTry cs k

/-- Match `\s*([^\n|.;]+)` against `cs` (the text right after the colon
of a marker), with the backtracking semantics of the JS regex engine. -/
def matchCapture (cs : List Char) : Option (List Char) :=
  capTry cs (cs.takeWhile isJsSpace).length

/-- Case-insensitive literal match: `pat` is given in lowercase;
returns the rest of the input on success. -/
def matchCI : List Char → List Char → Option (List Char)
  | [], cs => some cs
  | _ :: _, [] => none
  | p :: ps, c :: cs => if c.toLower = p then matchCI ps cs else none

/-- Try to match `UNIDAD\s*<digit>\s*:\s*([^\n|.;]+)` at the start of `cs`. -/
def matchMarkerAt (digit : Char) (cs : List Char) : Option (List Char) :=
  (matchCI ['u', 'n', 'i', 'd', 'a', 'd'] cs).bind fun cs1 =>
    match cs1.dropWhile isJsSpace with
    | c :: cs3 =>
      if c = digit then
        match cs3.dropWhile isJsSpace with
        | ':' :: cs5 => matchCapture cs5
        | _ => none
      else none
    | [] => none

/-- Leftmost match of the marker regex: try every start position from
the left and return the first capture. -/
def findMarker (digit : Char) : List Char → Option (List Char)
  | [] => none
  | c :: cs =>
    match matchMarkerAt digit (c :: cs) with
    | some cap => some cap
    | none => findMarker digit cs

/-- The capture of `UNIDAD <digit>:` on the text with carriage returns
replaced by spaces (`text.replace(/\r/g, ' ')`). -/
def unitCapture (digit : Char) (text : String) : Option String :=
  (findMarker digit (text.data.map fun c => if c = '\r' then ' ' else c)).map String.mk

/-- `extractUnitsFromExplanation` from `explanation.ts`. -/
def extractUnitsFromExplanation (text : String) : Option ExplanationUnits :=
  if text = "" then none
  else
    match unitCapture '1' text, unitCapture '2' text with
    | some r1, some r2 =>
      let u1 := cleanUnitName r1
      let u2 := cleanUnitName r2
      if u1 = "" || u2 = "" then none else some ⟨u1, u2⟩
    | _, _ => none

/-- JS `toLowerCase` restricted to the ASCII and Latin-1 letters
(sufficient for the label alphabets of this application). -/
def toLowerJs (c : Char) : Char :=
  if 'A' ≤ c && c ≤ 'Z' then Char.ofNat (c.toNat + 32)
  else if Char.ofNat 0xC0 ≤ c && c ≤ Char.ofNat 0xDE && c ≠ Char.ofNat 0xD7 then
    Char.ofNat (c.toNat + 32)
  else c

/-- The NFD decomposition followed by the removal of `\p{Diacritic}`,
folded into one table on the lowercase Latin-1 letters the application
uses. -/
def foldDiacritic (c : Char) : Char :=
  if c = 'á' || c = 'à' || c = 'â' || c = 'ã' || c = 'ä' || c = 'å' then 'a'
  else if c = 'é' || c = 'è' || c = 'ê' || c = 'ë' then 'e'
  else if c = 'í' || c = 'ì' || c = 'î' || c = 'ï' then 'i'
  else if c = 'ó' || c = 'ò' || c = 'ô' || c = 'õ' || c = 'ö' then 'o'
  else if c = 'ú' || c = 'ù' || c = 'û' || c = 'ü' then 'u'
  else if c = 'ñ' then 'n'
  else if c = 'ç' then 'c'
  else if c = 'ý' || c = 'ÿ' then 'y'
  else c

/-- Is `c` kept by the `[^a-z0-9\s]` replacement (after lowering and
diacritic folding)? -/
def isKeptByNormalize (c : Char) : Bool :=
  ('a' ≤ c && c ≤ 'z') || ('0' ≤ c && c ≤ '9') || isJsSpace c

/-- `normalizeText` from `explanation.ts`: lowercase, strip diacritics,
replace every other character by a space, collapse whitespace, trim. -/
def normalizeText (s : String) : String :=
  let cs := s.data.map (fun c => foldDiacritic (toLowerJs c))
  let cs := cs.map fun c => if isKeptByNormalize c then c else ' '
  jsTrim (String.mk (collapseWsGo false cs))

/-- First index at which `needle` occurs in `hay`
(JS `String.prototype.indexOf`). -/
def findSubIdx (needle : List Char) : List Char → Nat → Option Nat
  | [], i => if needle.isPrefixOf ([] : List Char) then some i else none
  | h :: t, i =>
    if needle.isPrefixOf (h :: t) then some i else findSubIdx needle t (i + 1)

/-- A catalog mention: the original label, the offset of its first
occurrence in the normalized text, and the normalized length. -/
structure Mention where
  label : String
  idx : Nat
  len : Nat
deriving DecidableEq, Repr

/-- The sort comparator `a.idx - b.idx || b.length - a.length`
read as a strict order (offset ascending, then length descending). -/
def mentionBefore (a b : Mention) : Bool :=
  a.idx < b.idx || (a.idx == b.idx && b.len < a.len)

/-- Stable insertion preserving the original order on ties, as the JS
stable `Array.prototype.sort` does. -/
def insertMention (x : Mention) : List Mention → List Mention
  | [] => [x]
  | y :: ys => if mentionBefore x y then x :: y :: ys else y :: insertMention x ys

/-- Stable sort of the mention list. -/
def sortMentions : List Mention → List Mention
  | [] => []
  | x :: xs => insertMention x (sortMentions xs)

/-- The dedup-and-take-two loop over the sorted mentions. -/
def uniqueTake2 : List Mention → List String → List String
  | [], acc => acc
  | m :: ms, acc =>
    if 2 ≤ acc.length then acc
    else if m.label ∈ acc then uniqueTake2 ms acc
    else uniqueTake2 ms (acc ++ [m.label])

/-- `inferUnitsFromCatalog` from `explanation.ts`. -/
def inferUnitsFromCatalog (text : String) (catalog : List String) :
    Option ExplanationUnits :=
  let normalizedText := normalizeText text
  if normalizedText = "" then none
  else
    let mentions := catalog.filterMap fun label =>
      let normalizedLabel := normalizeText label
      if normalizedLabel = "" then none
      else if normalizedLabel.length < 4 then none
      else (findSubIdx normalizedLabel.data normalizedText.data 0).map fun i =>
        { label := label, idx := i, len := normalizedLabel.length : Mention }
    let sorted := sortMentions mentions
    if sorted.length < 2 then none
    else
      let unique := uniqueTake2 sorted []
      if unique.length < 2 then none
      else some ⟨unique.getD 0 "", unique.getD 1 ""⟩

/-- `getPairLabelsFromExplanation` from `explanation.ts`. -/
def getPairLabelsFromExplanation (defaultRowLabel defaultColLabel : String)
    (explanation : String) (catalog : Option (List String)) : PairLabels :=
  let parsed := extractUnitsFromExplanation explanation
  let inferred :=
    match parsed with
    | some u => some u
    | none =>
      match catalog with
      | some c => inferUnitsFromCatalog explanation c
      | none => none
  match inferred with
  | none => ⟨defaultRowLabel, defaultColLabel⟩
  | some u => ⟨u.unit1, u.unit2⟩

/-- The loosely typed JSON payload the DataLoader receives; an absent or
wrongly typed field is `none`. -/
structure RawDendrogramJson where
  linkage : Option (List (List Rat))
  labels : Option (List String)
  contents : Option (List String)

/-- The validation performed by `parseAndLoad` in the DataLoader before
the data reaches `buildTree`: `linkage` and `labels` must be present
arrays and every linkage row must have exactly 4 entries.  Nothing else
is checked; in particular the ids inside a row are not validated. -/
def parseAndLoadValidate (p : RawDendrogramJson) :
    Except String (List (List Rat) × List String × Option (List String)) :=
  match p.linkage with
  | none => .error "El campo linkage es requerido y debe ser un array"
  | some lk =>
    match p.labels with
    | none => .error "El campo labels es requerido y debe ser un array"
    | some lbs =>
      match lk.findIdx? fun row => row.length ≠ 4 with
      | some i => .error ("Fila " ++ toString i ++ " del linkage debe tener 4 valores")
      | none => .ok (lk, lbs, p.contents)

/-- All ids consumed as children, in step order. -/
def childIds (steps : List LinkStep) : List Nat :=
  steps.flatMap fun s => [s.left, s.right]

/-- The `count` the linkage associates with id `j`: 1 for a leaf id,
otherwise the count of the producing step. -/
def idCount (n : Nat) (steps : List LinkStep) (j : Nat) : Nat :=
  if j < n then 1 else ((steps.get? (j - n)).map LinkStep.count).getD 0

/-- A valid agglomerative linkage over `n` leaves (spec sections 3-4.1):
every step references only ids produced before it, no id is consumed as
a child twice, and each step count is the size of the merged cluster. -/
structure ValidLinkage (n : Nat) (steps : List LinkStep) : Prop where
  refs : ∀ i (h : i < steps.length),
    (steps.get ⟨i, h⟩).left < n + i ∧ (steps.get ⟨i, h⟩).right < n + i
  nodup : (childIds steps).Nodup
  counts : ∀ i (h : i < steps.length),
    (steps.get ⟨i, h⟩).count =
      idCount n steps (steps.get ⟨i, h⟩).left + idCount n steps (steps.get ⟨i, h⟩).right

/-- The tree a valid linkage associates with id `j` (leaf for `j < n`,
otherwise the merge of the referenced subtrees); out-of-range or
ill-founded references return a junk leaf never reached under
`ValidLinkage`. -/
def idTree (n : Nat) (steps : List LinkStep) (labels : List String)
    (contents : Option (List String)) (j : Nat) : TreeNode :=
  if _ : j < n then
    .leaf j (labels.getD j "") (contents.bind fun cs => cs.get? j)
  else
    match steps.get? (j - n) with
    | none => .leaf j "" none
    | some s =>
      if h2 : s.left < j ∧ s.right < j then
        .node j s.distance s.count (idTree n steps labels contents s.left)
          (idTree n steps labels contents s.right)
      else .leaf j "" none
termination_by j
decreasing_by
  · exact h2.1
  · exact h2.2

section Lemmas

/-- Generic helper: the `else` branch of `buildTree` keyed at `n - 1`. -/
theorem initialNodes_get? (labels : List String) (contents : Option (List String))
    (j : Nat) (hj : j < labels.length) :
    (initialNodes labels contents).get? j =
      some (.leaf j (labels.getD j "") (contents.bind fun cs => cs.get? j)) := by
  simp [initialNodes, List.getElem?_range hj]

theorem assignGo_congr (t1 t2 : Rat) :
    ∀ (t : TreeNode), (∀ d ∈ distancesOf t, (d ≤ t1 ↔ d ≤ t2)) →
      ∀ next, assignGo t1 t next = assignGo t2 t next := by
  intro t
  induction t with
  | leaf i nm ct => intro _ next; rfl
  | node i d k l r ihl ihr =>
    intro hd next
    have hdd : d ≤ t1 ↔ d ≤ t2 := hd d (by simp [distancesOf])
    have hl : ∀ x ∈ distancesOf l, (x ≤ t1 ↔ x ≤ t2) := fun x hx =>
      hd x (by simp [distancesOf, hx])
    have hr : ∀ x ∈ distancesOf r, (x ≤ t1 ↔ x ≤ t2) := fun x hx =>
      hd x (by simp [distancesOf, hx])
    by_cases h1 : d ≤ t2
    · simp [assignGo, h1, hdd.mpr h1]
    · have h2 : ¬ d ≤ t1 := fun hc => h1 (hdd.mp hc)
      simp only [assignGo, if_neg h1, if_neg h2]
      rw [ihl hl next, ihr hr]

end Lemmas

/-- C10: with an empty linkage and `n ≥ 1` labels, `buildTree` signals
no error and returns the leaf of the last label (id `n - 1`); that leaf
is the whole returned tree, so the other `n - 1` leaves are not
reachable from it. -/
theorem buildTree_empty_linkage (labels : List String)
    (contents : Option (List String)) (h : 1 ≤ labels.length) :
    buildTree [] labels contents =
      .ok (.leaf (labels.length - 1) (labels.getD (labels.length - 1) "")
        (contents.bind fun cs => cs.get? (labels.length - 1))) ∧
    leafIdsT (.leaf (labels.length - 1) (labels.getD (labels.length - 1) "")
        (contents.bind fun cs => cs.get? (labels.length - 1))) =
      [labels.length - 1] := by
  have hn : labels.length - 1 < labels.length := by omega
  refine ⟨?_, rfl⟩
  have hroot := initialNodes_get? labels contents (labels.length - 1) hn
  simp only [buildTree, buildTreeGo, List.length_nil, Nat.add_zero, hroot]

/-- Witness for C10 at a concrete input. -/
theorem buildTree_empty_linkage_witness :
    buildTree [] ["a", "b", "c"] none = .ok (.leaf 2 "c" none) := by
  have h := buildTree_empty_linkage ["a", "b", "c"] none (by decide)
  simpa using h.1

/-- C3 (evidence for a code bug): a linkage row referencing the absent
id 5 passes the DataLoader validation unchanged (its row has 4 entries,
which is all that is checked), and `buildTree` then crashes with a
TypeError instead of raising a descriptive structural error. -/
theorem invalid_reference_not_caught :
    parseAndLoadValidate ⟨some [[0, 5, 1, 2]], some ["a", "b"], none⟩ =
      .ok ([[0, 5, 1, 2]], ["a", "b"], none) ∧
    buildTree [⟨0, 5, 1, 2⟩] ["a", "b"] none =
      .error "TypeError: cannot set parent of undefined node" := by
  exact ⟨rfl, rfl⟩

/-- C5 counterexample: a tree built from well-formed input whose single
merge distance is 0 (allowed, the spec requires only `distance ≥ 0`).
At threshold `-1` the root is not absorbed (`0 ≤ -1` fails), giving 2
clusters, while threshold `0` gives 1 cluster; partition and count both
differ. -/
theorem assignClusters_neg_differs_at_zero_distance :
    buildTree [⟨0, 1, 0, 2⟩] ["a", "b"] none =
      .ok (.node 2 0 2 (.leaf 0 "a" none) (.leaf 1 "b" none)) ∧
    (assignClusters (.node 2 0 2 (.leaf 0 "a" none) (.leaf 1 "b" none)) (-1)).2 = 2 ∧
    (assignClusters (.node 2 0 2 (.leaf 0 "a" none) (.leaf 1 "b" none)) 0).2 = 1 ∧
    leafCids (assignClusters (.node 2 0 2 (.leaf 0 "a" none) (.leaf 1 "b" none)) (-1)).1 =
      [some 0, some 1] ∧
    leafCids (assignClusters (.node 2 0 2 (.leaf 0 "a" none) (.leaf 1 "b" none)) 0).1 =
      [some 0, some 0] := by
  refine ⟨rfl, ?_, ?_, ?_, ?_⟩ <;> decide

/-- C5 (amended): when every merge distance is strictly positive, any
negative threshold produces exactly the same assignment (hence the same
partition and the same returned count) as threshold 0. -/
theorem assignClusters_neg_eq_zero (root : TreeNode) (t : Rat)
    (hpos : ∀ d ∈ distancesOf root, 0 < d) (ht : t < 0) :
    assignClusters root t = assignClusters root 0 := by
  unfold assignClusters
  refine assignGo_congr t 0 root (fun d hd => ?_) 0
  have h0 : 0 < d := hpos d hd
  constructor
  · intro hc; linarith
  · intro hc; linarith

/-- Witness for the amended C5 at a concrete input. -/
theorem assignClusters_neg_eq_zero_witness :
    assignClusters (.node 2 1 2 (.leaf 0 "a" none) (.leaf 1 "b" none)) (-1) =
      assignClusters (.node 2 1 2 (.leaf 0 "a" none) (.leaf 1 "b" none)) 0 :=
  assignClusters_neg_eq_zero _ _ (by decide) (by norm_num)

section ScanLemmas

theorem scanForLabelColumn_eq (header : List String) :
    ∀ (row : List String) (k : Nat),
      scanForLabelColumn header row k =
        (row.findIdx? fun cell =>
            decide (jsTrim cell ≠ "") &&
              (header.findIdx? fun v => jsTrim v == jsTrim cell).isSome).bind
          fun i =>
            (header.findIdx? fun v => jsTrim v == jsTrim (row.getD i "")).map
              fun hh => (k + i, hh) := by
  intro row
  induction row with
  | nil => intro k; simp [scanForLabelColumn]
  | cons cell rest ih =>
    intro k
    by_cases hc : jsTrim cell = ""
    · have hp : (decide (jsTrim cell ≠ "") &&
          (header.findIdx? fun v => jsTrim v == jsTrim cell).isSome) = false := by
        simp [hc]
      rw [List.findIdx?_cons, hp, if_neg (by simp)]
      rw [List.findIdx?_start_succ]
      simp only [scanForLabelColumn, hc, if_pos rfl]
      rw [ih (k + 1)]
      cases h : rest.findIdx? fun cell =>
          decide (jsTrim cell ≠ "") &&
            (header.findIdx? fun v => jsTrim v == jsTrim cell).isSome with
      | none => simp
      | some i =>
        simp only [Option.map_some', Option.some_bind, List.getD_cons_succ]
        have harith : k + 1 + i = k + (i + 1) := by omega
        simp [harith]
    · cases hh : header.findIdx? fun v => jsTrim v == jsTrim cell with
      | some hIdx =>
        have hp : (decide (jsTrim cell ≠ "") &&
            (header.findIdx? fun v => jsTrim v == jsTrim cell).isSome) = true := by
          simp [hc, hh]
        rw [List.findIdx?_cons, hp, if_pos rfl]
        simp only [scanForLabelColumn, hc, if_neg hc, hh, Option.some_bind,
          List.getD_cons_zero, Option.map_some', Nat.add_zero]
        simp
      | none =>
        have hp : (decide (jsTrim cell ≠ "") &&
            (header.findIdx? fun v => jsTrim v == jsTrim cell).isSome) = false := by
          simp [hc, hh]
        rw [List.findIdx?_cons, hp, if_neg (by simp)]
        rw [List.findIdx?_start_succ]
        simp only [scanForLabelColumn, hc, if_neg hc, hh]
        rw [ih (k + 1)]
        cases h : rest.findIdx? fun cell =>
            decide (jsTrim cell ≠ "") &&
              (header.findIdx? fun v => jsTrim v == jsTrim cell).isSome with
        | none => simp
        | some i =>
          simp only [Option.map_some', Option.some_bind, List.getD_cons_succ]
          have harith : k + 1 + i = k + (i + 1) := by omega
          simp [harith]

end ScanLemmas

/-- C7: `detectMatrixLayout` scans the first non-empty data row left to
right; at the first non-empty cell whose trimmed value equals some
trimmed header cell it takes that column as `rowLabelColumn` and the
matched header index (the first matching one, via `findIndex`) as
`firstDataColumn`; the scan is exactly a first-match search
(`List.findIdx?`), and the two concrete layouts of the specification
come out as stated. -/
theorem detectMatrixLayout_spec :
    (∀ (rows : List (List String)) (fdr : List String) (c h : Nat),
      ((rows.drop 1).filter fun r => r.length > 0).head? = some fdr →
      scanForLabelColumn (rows.headD []) fdr 0 = some (c, h) →
      (detectMatrixLayout rows).rowLabelColumn = c ∧
      (detectMatrixLayout rows).firstDataColumn = h) ∧
    (∀ (header row : List String) (k : Nat),
      scanForLabelColumn header row k =
        (row.findIdx? fun cell =>
            decide (jsTrim cell ≠ "") &&
              (header.findIdx? fun v => jsTrim v == jsTrim cell).isSome).bind
          fun i =>
            (header.findIdx? fun v => jsTrim v == jsTrim (row.getD i "")).map
              fun hh => (k + i, hh)) ∧
    detectMatrixLayout [["", "A", "B"], ["A", "1", "2"]] =
      { labels := ["A", "B"], dataRows := [["A", "1", "2"]],
        rowLabelColumn := 0, firstDataColumn := 1 } ∧
    (detectMatrixLayout [["lbl", "A", "B"], ["id1", "A", "1", "2"]]).rowLabelColumn = 1 ∧
    (detectMatrixLayout [["lbl", "A", "B"], ["id1", "A", "1", "2"]]).firstDataColumn = 1 := by
  refine ⟨?_, scanForLabelColumn_eq, by decide, by decide, by decide⟩
  intro rows fdr c h hhead hscan
  have hhead2 : List.find? (fun row => decide (0 < row.length)) rows.tail = some fdr := by
    simpa using hhead
  have hscan2 : scanForLabelColumn (rows.head?.getD []) fdr 0 = some (c, h) := by
    simpa [List.headD_eq_head?_getD] using hscan
  simp [detectMatrixLayout, hhead2, hscan2]

/-- Witness for C7 on the concrete extra-leading-column layout. -/
theorem detectMatrixLayout_spec_witness :
    (detectMatrixLayout [["lbl", "A", "B"], ["id1", "A", "1", "2"]]).rowLabelColumn = 1 ∧
    (detectMatrixLayout [["lbl", "A", "B"], ["id1", "A", "1", "2"]]).firstDataColumn = 1 :=
  detectMatrixLayout_spec.1 [["lbl", "A", "B"], ["id1", "A", "1", "2"]]
    ["id1", "A", "1", "2"] 1 1 (by decide) (by decide)

/-- C8: the pair-label extractor is total; when both `UNIDAD 1:` and
`UNIDAD 2:` markers match (with non-empty cleaned captures) it returns
the two captured names cleaned, in particular on the concrete example of
the specification; and when the marker strategy and the catalog strategy
both fail it returns the caller defaults unchanged. -/
theorem getPairLabels_spec :
    getPairLabelsFromExplanation "R" "C" "UNIDAD 1: Foo | UNIDAD 2: Bar" none =
      ⟨"Foo", "Bar"⟩ ∧
    (∀ (d1 d2 text : String) (cat : Option (List String)) (r1 r2 : String),
      unitCapture '1' text = some r1 → unitCapture '2' text = some r2 →
      cleanUnitName r1 ≠ "" → cleanUnitName r2 ≠ "" →
      getPairLabelsFromExplanation d1 d2 text cat =
        ⟨cleanUnitName r1, cleanUnitName r2⟩) ∧
    (∀ (d1 d2 text : String) (cat : Option (List String)),
      extractUnitsFromExplanation text = none →
      (∀ c, cat = some c → inferUnitsFromCatalog text c = none) →
      getPairLabelsFromExplanation d1 d2 text cat = ⟨d1, d2⟩) := by
  refine ⟨by decide, ?_, ?_⟩
  · intro d1 d2 text cat r1 r2 h1 h2 hc1 hc2
    have htext : text ≠ "" := by
      intro he
      rw [he] at h1
      exact Option.noConfusion h1
    have hext : extractUnitsFromExplanation text =
        some ⟨cleanUnitName r1, cleanUnitName r2⟩ := by
      simp [extractUnitsFromExplanation, htext, h1, h2, hc1, hc2]
    simp [getPairLabelsFromExplanation, hext]
  · intro d1 d2 text cat hext hcat
    cases cat with
    | none => simp [getPairLabelsFromExplanation, hext]
    | some c => simp [getPairLabelsFromExplanation, hext, hcat c rfl]

/-- Witness for C8: a concrete marker text with a catalog present. -/
theorem getPairLabels_spec_witness :
    getPairLabelsFromExplanation "X" "Y" "unidad 1: Alpha; unidad 2: Beta."
      (some ["Gamma"]) = ⟨"Alpha", "Beta"⟩ := by
  have h := getPairLabels_spec.2.1 "X" "Y" "unidad 1: Alpha; unidad 2: Beta."
    (some ["Gamma"]) "Alpha" "Beta" rfl rfl (by decide) (by decide)
  simpa using h

section MapLemmas

theorem jsMapGet_last {α : Type} (k : String) :
    ∀ (entries : List (String × α)) (j : Nat) (hj : j < entries.length),
      (entries.get ⟨j, hj⟩).1 = k →
      (∀ j' (hj' : j' < entries.length), j < j' → (entries.get ⟨j', hj'⟩).1 ≠ k) →
      jsMapGet entries k = some (entries.get ⟨j, hj⟩).2 := by
  intro entries
  induction entries with
  | nil => intro j hj; exact absurd hj (by simp)
  | cons e rest ih =>
    intro j hj hkey hlater
    cases j with
    | zero =>
      have hfil : rest.filter (fun x => x.1 == k) = [] := by
        rw [List.filter_eq_nil_iff]
        intro x hx
        obtain ⟨m, hxm⟩ := List.get_of_mem hx
        have hne := hlater (↑m + 1) (by simpa using m.isLt) (Nat.succ_pos _)
        simp only [List.get_cons_succ] at hne
        rw [← hxm]
        simpa using hne
      have he : (e.1 == k) = true := by
        simpa using hkey
      simp [jsMapGet, List.filter_cons, he, hfil]
    | succ jj =>
      have hjr : jj < rest.length := by simpa using hj
      have hkey2 : (rest.get ⟨jj, hjr⟩).1 = k := by
        simpa using hkey
      have hlater2 : ∀ m (hm : m < rest.length), jj < m →
          (rest.get ⟨m, hm⟩).1 ≠ k := by
        intro m hm hlt
        have := hlater (m + 1) (by simpa using hm) (by omega)
        simpa using this
      have ihh := ih jj hjr hkey2 hlater2
      unfold jsMapGet at ihh ⊢
      obtain ⟨x, xs, hfil⟩ : ∃ x xs, rest.filter (fun e => e.1 == k) = x :: xs := by
        cases hf : rest.filter (fun e => e.1 == k) with
        | nil => rw [hf] at ihh; simp at ihh
        | cons x xs => exact ⟨x, xs, rfl⟩
      rw [List.filter_cons]
      by_cases he : (e.1 == k) = true
      · simp only [he, if_pos, hfil, List.getLast?_cons_cons]
        rw [hfil] at ihh
        simpa using ihh
      · simp only [Bool.not_eq_true] at he
        simp only [he, Bool.false_eq_true, if_false, hfil]
        rw [hfil] at ihh
        simpa using ihh

theorem alignIndexMap_entry (sourceLabels : List String) (l : String) (j : Nat)
    (hj : j < sourceLabels.length)
    (hkey : jsTrim (sourceLabels.get ⟨j, hj⟩) = jsTrim l)
    (hlast : ∀ j' (hj' : j' < sourceLabels.length), j < j' →
      jsTrim (sourceLabels.get ⟨j', hj'⟩) ≠ jsTrim l) :
    alignIndexMap sourceLabels (jsTrim l) = some j := by
  unfold alignIndexMap
  have hlen : j < (sourceLabels.enum.map fun p => (jsTrim p.2, p.1)).length := by
    simpa using hj
  have hget : ∀ (m : Nat) (hm : m < sourceLabels.length),
      (sourceLabels.enum.map fun p => (jsTrim p.2, p.1)).get
        ⟨m, by simpa using hm⟩ =
        (jsTrim (sourceLabels.get ⟨m, hm⟩), m) := by
    intro m hm
    simp [List.get_eq_getElem, List.getElem_enum]
  rw [jsMapGet_last (jsTrim l) _ j hlen]
  · rw [hget j hj]
  · rw [hget j hj]; exact hkey
  · intro j' hj' hlt
    have hj'2 : j' < sourceLabels.length := by simpa using hj'
    rw [hget j' hj'2]
    simpa using hlast j' hj'2 hlt

theorem alignIndexMap_self (L : List String) (hN : (L.map jsTrim).Nodup)
    (i : Nat) (hi : i < L.length) :
    alignIndexMap L (jsTrim (L.get ⟨i, hi⟩)) = some i := by
  refine alignIndexMap_entry L (L.get ⟨i, hi⟩) i hi rfl ?_
  intro j' hj' hlt hfe
  have h1 : (L.map jsTrim).get ⟨j', by simpa using hj'⟩ =
      (L.map jsTrim).get ⟨i, by simpa using hi⟩ := by
    simpa using hfe
  have hv : j' = i := by
    have h2 := (List.Nodup.get_inj_iff hN).mp h1
    simpa using congrArg Fin.val h2
  omega

end MapLemmas

/-- C4 counterexample: with the duplicated label list `["A", "A"]`, the
index map resolves `"A"` to the LAST occurrence (JS `Map` constructor
semantics), so aligning the matrix to its own labels replicates the
bottom-right cell instead of returning the matrix. -/
theorem align_roundtrip_dup_counterexample :
    alignNumericMatrixByLabels ["A", "A"]
        [[some 1, some 2], [some 3, some 4]] ["A", "A"] =
      [[some 4, some 4], [some 4, some 4]] ∧
    ([[some 4, some 4], [some 4, some 4]] : List (List (Option Rat))) ≠
      [[some 1, some 2], [some 3, some 4]] := by
  exact ⟨by decide, by decide⟩

/-- C4 (amended): for a square matrix over labels that are pairwise
distinct after trimming, aligning to the same label list returns the
matrix unchanged, in both the numeric and the textual overload. -/
theorem align_roundtrip_self (L : List String) (M : List (List (Option Rat)))
    (S : List (List String)) (hN : (L.map jsTrim).Nodup)
    (hM : M.length = L.length) (hMr : ∀ r ∈ M, r.length = L.length)
    (hS : S.length = L.length) (hSr : ∀ r ∈ S, r.length = L.length) :
    alignNumericMatrixByLabels L M L = M ∧ alignTextMatrixByLabels L S L = S := by
  constructor
  · apply List.ext_get
    · simp [alignNumericMatrixByLabels, hM]
    intro i h1 h2
    have hiL : i < L.length := by simpa [alignNumericMatrixByLabels] using h1
    simp only [alignNumericMatrixByLabels, List.get_map]
    apply List.ext_get
    · have hr := hMr (M.get ⟨i, h2⟩) (List.get_mem M i h2)
      simpa [List.get_eq_getElem] using hr.symm
    intro j j1 j2
    have hjL : j < L.length := by simpa using j1
    simp only [List.get_map]
    have hMi : M.get? i = some (M.get ⟨i, h2⟩) := List.get?_eq_get h2
    have hMj : (M.get ⟨i, h2⟩).get? j = some ((M.get ⟨i, h2⟩).get ⟨j, j2⟩) :=
      List.get?_eq_get j2
    simp only [alignIndexMap_self L hN i hiL, alignIndexMap_self L hN j hjL,
      hMi, Option.some_bind, hMj]
  · apply List.ext_get
    · simp [alignTextMatrixByLabels, hS]
    intro i h1 h2
    have hiL : i < L.length := by simpa [alignTextMatrixByLabels] using h1
    simp only [alignTextMatrixByLabels, List.get_map]
    apply List.ext_get
    · have hr := hSr (S.get ⟨i, h2⟩) (List.get_mem S i h2)
      simpa [List.get_eq_getElem] using hr.symm
    intro j j1 j2
    have hjL : j < L.length := by simpa using j1
    simp only [List.get_map]
    have hSi : S.get? i = some (S.get ⟨i, h2⟩) := List.get?_eq_get h2
    have hSj : (S.get ⟨i, h2⟩).get? j = some ((S.get ⟨i, h2⟩).get ⟨j, j2⟩) :=
      List.get?_eq_get j2
    simp only [alignIndexMap_self L hN i hiL, alignIndexMap_self L hN j hjL,
      hSi, Option.some_bind, hSj, Option.getD_some]

/-- Witness for the amended C4 at a concrete 2 by 2 matrix. -/
theorem align_roundtrip_self_witness :
    alignNumericMatrixByLabels ["A", "B"]
        [[some 1, some 2], [some 3, some 4]] ["A", "B"] =
      [[some 1, some 2], [some 3, some 4]] ∧
    alignTextMatrixByLabels ["A", "B"] [["x", "y"], ["z", "w"]] ["A", "B"] =
      [["x", "y"], ["z", "w"]] :=
  align_roundtrip_self ["A", "B"] [[some 1, some 2], [some 3, some 4]]
    [["x", "y"], ["z", "w"]] (by decide) (by decide)
    (by decide) (by decide) (by decide)

/-- C6 counterexample: both map-based lookups resolve a duplicated label
to its LAST occurrence, not the first.  Aligning `[["1","2"],["3","4"]]`
keyed by `["A", "A"]` to target `["A"]` reads cell `(1,1) = 4` (first
occurrence semantics would read `(0,0) = 1`), and the parser keyed on
duplicated row label `"A"` reads the later data row `9 8`, not `1 2`. -/
theorem label_lookup_dup_counterexample :
    alignNumericMatrixByLabels ["A", "A"]
        [[some 1, some 2], [some 3, some 4]] ["A"] = [[some 4]] ∧
    ([[some 4]] : List (List (Option Rat))) ≠ [[some 1]] ∧
    parseScoreMatrixRows
        [["", "A", "B"], ["A", "1", "2"], ["A", "9", "8"], ["B", "3", "4"]] =
      (["A", "B"], [[some 9, some 8], [some 3, some 4]]) ∧
    ((["A", "B"], [[some 9, some 8], [some 3, some 4]]) :
        List String × List (List (Option Rat))) ≠
      (["A", "B"], [[some 1, some 2], [some 3, some 4]]) := by
  exact ⟨by decide, by decide, by decide, by decide⟩

/-- C6 (amended): the map-based label lookups used during matrix
alignment and matrix parsing resolve a duplicated label to its LAST
occurrence in the source list: the aligner index map returns the last
index whose trimmed label matches, and the parser row map returns the
last data row whose trimmed label cell matches. -/
theorem label_lookup_last_occurrence :
    (∀ (sourceLabels : List String) (l : String) (j : Nat)
      (hj : j < sourceLabels.length),
      jsTrim (sourceLabels.get ⟨j, hj⟩) = jsTrim l →
      (∀ j' (hj' : j' < sourceLabels.length), j < j' →
        jsTrim (sourceLabels.get ⟨j', hj'⟩) ≠ jsTrim l) →
      alignIndexMap sourceLabels (jsTrim l) = some j) ∧
    (∀ (dataRows : List (List String)) (rlc : Nat) (label : String) (j : Nat)
      (hj : j < dataRows.length),
      normalizeLabel ((dataRows.get ⟨j, hj⟩).get? rlc) = label →
      (∀ j' (hj' : j' < dataRows.length), j < j' →
        normalizeLabel ((dataRows.get ⟨j', hj'⟩).get? rlc) ≠ label) →
      rowByLabelMap dataRows rlc label = some (dataRows.get ⟨j, hj⟩)) := by
  constructor
  · exact fun L l j hj hk hl => alignIndexMap_entry L l j hj hk hl
  · intro dataRows rlc label j hj hkey hlater
    unfold rowByLabelMap
    have hget : ∀ (m : Nat) (hm : m < dataRows.length),
        ((dataRows.map fun row => (normalizeLabel (row.get? rlc), row)).get
          ⟨m, by simpa using hm⟩) =
          (normalizeLabel ((dataRows.get ⟨m, hm⟩).get? rlc), dataRows.get ⟨m, hm⟩) := by
      intro m hm
      simp [List.get_eq_getElem]
    rw [jsMapGet_last label _ j (by simpa using hj)]
    · rw [hget j hj]
    · rw [hget j hj]; exact hkey
    · intro j' hj' hlt
      have hj'2 : j' < dataRows.length := by simpa using hj'
      rw [hget j' hj'2]
      simpa using hlater j' hj'2 hlt

/-- Witness for the amended C6 on concrete duplicated labels. -/
theorem label_lookup_last_occurrence_witness :
    alignIndexMap ["A", "A"] (jsTrim "A") = some 1 ∧
    rowByLabelMap [["A", "1"], ["A", "9"]] 0 "A" = some ["A", "9"] := by
  constructor
  · exact label_lookup_last_occurrence.1 ["A", "A"] "A" 1 (by decide) (by decide)
      (fun j' hj' hlt => by simp at hj'; omega)
  · have h := label_lookup_last_occurrence.2 [["A", "1"], ["A", "9"]] 0 "A" 1
      (by decide) (by decide) (fun j' hj' hlt => by simp at hj'; omega)
    simpa using h

section AssignLemmas

theorem cidOf_assignAll (t : TreeNode) (c : Nat) : cidOf (assignAll t c) = some c := by
  cases t <;> rfl

theorem self_mem_preorderA (u : ATree) : u ∈ preorderA u := by
  cases u <;> simp [preorderA]

theorem preorderA_assignAll_cid (t : TreeNode) (c : Nat) :
    ∀ u ∈ preorderA (assignAll t c), cidOf u = some c := by
  induction t with
  | leaf i nm ct => intro u hu; simp [assignAll, preorderA] at hu; simp [hu, cidOf]
  | node i d k l r ihl ihr =>
    intro u hu
    simp only [assignAll, preorderA, List.mem_cons, List.mem_append] at hu
    rcases hu with h | h | h
    · simp [h, cidOf]
    · exact ihl u h
    · exact ihr u h

theorem leafCids_assignAll (t : TreeNode) (c : Nat) :
    leafCids (assignAll t c) = List.replicate (leafCountT t) (some c) := by
  induction t with
  | leaf i nm ct => rfl
  | node i d k l r ihl ihr =>
    simp only [assignAll, leafCids, ihl, ihr, leafCountT, leafIdsT,
      List.length_append, List.replicate_add]

theorem assignGo_node_root {thr d : Rat} (h : d ≤ thr) (i k : Nat)
    (l r : TreeNode) (next : Nat) :
    assignGo thr (.node i d k l r) next =
      (assignAll (.node i d k l r) next, next + 1) := by
  simp [assignGo, h]

theorem assignGo_node_rec {thr d : Rat} (h : ¬ d ≤ thr) (i k : Nat)
    (l r : TreeNode) (next : Nat) :
    assignGo thr (.node i d k l r) next =
      (.node i d k none (assignGo thr l next).1
        (assignGo thr r (assignGo thr l next).2).1,
       (assignGo thr r (assignGo thr l next).2).2) := by
  simp [assignGo, h]

theorem assignGo_snd_gt (thr : Rat) (t : TreeNode) :
    ∀ next, next < (assignGo thr t next).2 := by
  induction t with
  | leaf i nm ct => intro next; simp [assignGo]
  | node i d k l r ihl ihr =>
    intro next
    by_cases h : d ≤ thr
    · rw [assignGo_node_root h]; simp
    · rw [assignGo_node_rec h]
      exact lt_trans (ihl next) (ihr _)

theorem leafCids_assignGo_length (thr : Rat) (t : TreeNode) :
    ∀ next, (leafCids (assignGo thr t next).1).length = leafCountT t := by
  induction t with
  | leaf i nm ct => intro next; rfl
  | node i d k l r ihl ihr =>
    intro next
    by_cases h : d ≤ thr
    · rw [assignGo_node_root h]
      simp [leafCids_assignAll]
    · rw [assignGo_node_rec h]
      simp only [leafCids, List.length_append, ihl, ihr, leafCountT, leafIdsT]

theorem leafCids_assignGo_bounds (thr : Rat) (t : TreeNode) :
    ∀ next, ∀ x ∈ leafCids (assignGo thr t next).1,
      ∃ c, x = some c ∧ next ≤ c ∧ c < (assignGo thr t next).2 := by
  induction t with
  | leaf i nm ct =>
    intro next x hx
    simp only [assignGo, leafCids, List.mem_singleton] at hx
    exact ⟨next, hx, le_refl next, by simp [assignGo]⟩
  | node i d k l r ihl ihr =>
    intro next x hx
    by_cases h : d ≤ thr
    · rw [assignGo_node_root h] at hx ⊢
      rw [leafCids_assignAll] at hx
      have := List.eq_of_mem_replicate hx
      exact ⟨next, this, le_refl next, by simp⟩
    · rw [assignGo_node_rec h] at hx ⊢
      simp only [leafCids, List.mem_append] at hx
      rcases hx with hx | hx
      · obtain ⟨c, hc, h1, h2⟩ := ihl next x hx
        exact ⟨c, hc, h1, lt_trans h2 (assignGo_snd_gt thr r _)⟩
      · obtain ⟨c, hc, h1, h2⟩ := ihr _ x hx
        exact ⟨c, hc, le_trans (le_of_lt (assignGo_snd_gt thr l next)) h1, h2⟩

theorem preorderA_assignGo_bounds (thr : Rat) (t : TreeNode) :
    ∀ next, ∀ u ∈ preorderA (assignGo thr t next).1, ∀ c, cidOf u = some c →
      next ≤ c ∧ c < (assignGo thr t next).2 := by
  induction t with
  | leaf i nm ct =>
    intro next u hu c hc
    simp only [assignGo, preorderA, List.mem_singleton] at hu
    rw [hu] at hc
    simp only [cidOf, Option.some.injEq] at hc
    simp [assignGo, ← hc]
  | node i d k l r ihl ihr =>
    intro next u hu c hc
    by_cases h : d ≤ thr
    · rw [assignGo_node_root h] at hu ⊢
      have := preorderA_assignAll_cid _ next u hu
      rw [this] at hc
      simp only [Option.some.injEq] at hc
      simp [← hc]
    · rw [assignGo_node_rec h] at hu ⊢
      simp only [preorderA, List.mem_cons, List.mem_append] at hu
      rcases hu with hu | hu | hu
      · rw [hu] at hc; simp [cidOf] at hc
      · obtain ⟨h1, h2⟩ := ihl next u hu c hc
        exact ⟨h1, lt_trans h2 (assignGo_snd_gt thr r _)⟩
      · obtain ⟨h1, h2⟩ := ihr _ u hu c hc
        exact ⟨le_trans (le_of_lt (assignGo_snd_gt thr l next)) h1, h2⟩

theorem preorderA_assignGo_surj (thr : Rat) (t : TreeNode) :
    ∀ next c, next ≤ c → c < (assignGo thr t next).2 →
      ∃ u ∈ preorderA (assignGo thr t next).1, cidOf u = some c := by
  induction t with
  | leaf i nm ct =>
    intro next c h1 h2
    simp only [assignGo] at h2 ⊢
    have : c = next := by omega
    exact ⟨.leaf i nm ct (some next), by simp [preorderA], by simp [cidOf, this]⟩
  | node i d k l r ihl ihr =>
    intro next c h1 h2
    by_cases h : d ≤ thr
    · rw [assignGo_node_root h] at h2 ⊢
      simp only at h2
      have hc : c = next := by omega
      exact ⟨assignAll (.node i d k l r) next, self_mem_preorderA _, by
        rw [cidOf_assignAll, hc]⟩
    · rw [assignGo_node_rec h] at h2 ⊢
      simp only at h2 ⊢
      by_cases hcn : c < (assignGo thr l next).2
      · obtain ⟨u, hu, hcu⟩ := ihl next c h1 hcn
        exact ⟨u, by simp [preorderA, hu], hcu⟩
      · obtain ⟨u, hu, hcu⟩ := ihr _ c (by omega) h2
        exact ⟨u, by simp [preorderA, hu], hcu⟩

theorem preorderA_assignGo_subtree (thr : Rat) (t : TreeNode) :
    ∀ next c, next ≤ c → c < (assignGo thr t next).2 →
      ∃ v ∈ preorderA (assignGo thr t next).1,
        (preorderA (assignGo thr t next).1).filter
          (fun u => cidOf u == some c) = preorderA v := by
  induction t with
  | leaf i nm ct =>
    intro next c h1 h2
    simp only [assignGo] at h2 ⊢
    have hc : c = next := by omega
    refine ⟨.leaf i nm ct (some next), by simp [preorderA], ?_⟩
    simp [preorderA, List.filter, cidOf, hc]
  | node i d k l r ihl ihr =>
    intro next c h1 h2
    by_cases h : d ≤ thr
    · rw [assignGo_node_root h] at h2 ⊢
      simp only at h2
      have hc : c = next := by omega
      refine ⟨assignAll (.node i d k l r) next, self_mem_preorderA _, ?_⟩
      apply List.filter_eq_self.mpr
      intro u hu
      rw [preorderA_assignAll_cid _ next u hu, hc]
      simp
    · rw [assignGo_node_rec h] at h2 ⊢
      simp only at h2 ⊢
      have hhead : (cidOf (ATree.node i d k none (assignGo thr l next).1
          (assignGo thr r (assignGo thr l next).2).1) == some c) = false := by
        simp [cidOf]
      by_cases hcn : c < (assignGo thr l next).2
      · obtain ⟨v, hv, hfil⟩ := ihl next c h1 hcn
        refine ⟨v, by simp [preorderA, hv], ?_⟩
        have hR : (preorderA (assignGo thr r (assignGo thr l next).2).1).filter
            (fun u => cidOf u == some c) = [] := by
          rw [List.filter_eq_nil_iff]
          intro u hu hbeq
          simp only [beq_iff_eq] at hbeq
          obtain ⟨hb1, _⟩ := preorderA_assignGo_bounds thr r _ u hu c hbeq
          omega
        simp only [preorderA, List.filter_cons, hhead, List.filter_append, hfil, hR,
          List.append_nil]
        simp
      · obtain ⟨v, hv, hfil⟩ := ihr _ c (by omega) h2
        refine ⟨v, by simp [preorderA, hv], ?_⟩
        have hL : (preorderA (assignGo thr l next).1).filter
            (fun u => cidOf u == some c) = [] := by
          rw [List.filter_eq_nil_iff]
          intro u hu hbeq
          simp only [beq_iff_eq] at hbeq
          obtain ⟨_, hb2⟩ := preorderA_assignGo_bounds thr l next u hu c hbeq
          omega
        simp only [preorderA, List.filter_cons, hhead, List.filter_append, hfil, hL,
          List.nil_append]
        simp

end AssignLemmas

/-- C9 counterexample: on the 2-leaf tree with merge distance 5 and
threshold 1, `assignClusters` returns 2, but the root node itself is
reachable (it is in its own pre-order list) and its `clusterId` is left
unset, so not every reachable node carries a cluster id in `[0, k)`. -/
theorem assignClusters_unassigned_internal :
    (assignClusters (.node 2 5 2 (.leaf 0 "a" none) (.leaf 1 "b" none)) 1).2 = 2 ∧
    (assignClusters (.node 2 5 2 (.leaf 0 "a" none) (.leaf 1 "b" none)) 1).1 ∈
      preorderA (assignClusters (.node 2 5 2 (.leaf 0 "a" none) (.leaf 1 "b" none)) 1).1 ∧
    cidOf (assignClusters (.node 2 5 2 (.leaf 0 "a" none) (.leaf 1 "b" none)) 1).1 =
      none := by
  exact ⟨by decide, by decide, by decide⟩

/-- C9 (amended): after `assignClusters(root, t)` returns `k`, every
node that receives a cluster id has it in `[0, k)` (internal nodes
above the cluster roots are left unassigned), every leaf receives one,
every id in `[0, k)` occurs on some node, and, for each id `c < k`, the
nodes carrying `c` are exactly the pre-order nodes of one whole subtree. -/
theorem assignClusters_partition (root : TreeNode) (thr : Rat) :
    (∀ u ∈ preorderA (assignClusters root thr).1, ∀ c, cidOf u = some c →
      c < (assignClusters root thr).2) ∧
    (∀ x ∈ leafCids (assignClusters root thr).1, x.isSome = true) ∧
    (∀ c, c < (assignClusters root thr).2 →
      ∃ u ∈ preorderA (assignClusters root thr).1, cidOf u = some c) ∧
    (∀ c, c < (assignClusters root thr).2 →
      ∃ v ∈ preorderA (assignClusters root thr).1,
        (preorderA (assignClusters root thr).1).filter
          (fun u => cidOf u == some c) = preorderA v) := by
  refine ⟨?_, ?_, ?_, ?_⟩
  · intro u hu c hc
    exact (preorderA_assignGo_bounds thr root 0 u hu c hc).2
  · intro x hx
    obtain ⟨c, hc, -, -⟩ := leafCids_assignGo_bounds thr root 0 x hx
    simp [hc]
  · intro c hc
    exact preorderA_assignGo_surj thr root 0 c (Nat.zero_le c) hc
  · intro c hc
    exact preorderA_assignGo_subtree thr root 0 c (Nat.zero_le c) hc

/-- Witness for the amended C9 at a concrete tree and threshold. -/
theorem assignClusters_partition_witness :
    ∃ u ∈ preorderA
        (assignClusters (.node 2 5 2 (.leaf 0 "a" none) (.leaf 1 "b" none)) 1).1,
      cidOf u = some 1 :=
  (assignClusters_partition (.node 2 5 2 (.leaf 0 "a" none) (.leaf 1 "b" none)) 1).2.2.1
    1 (by decide)

section CoarsenLemmas

theorem leafCountT_node (i : Nat) (d : Rat) (k : Nat) (l r : TreeNode) :
    leafCountT (.node i d k l r) = leafCountT l + leafCountT r := by
  simp [leafCountT, leafIdsT]

theorem leafCids_coarsen (t1 t2 : Rat) (hle : t1 ≤ t2) (t : TreeNode) :
    ∀ (n1 n2 i j : Nat), i < leafCountT t → j < leafCountT t →
      (leafCids (assignGo t1 t n1).1).get? i =
        (leafCids (assignGo t1 t n1).1).get? j →
      (leafCids (assignGo t2 t n2).1).get? i =
        (leafCids (assignGo t2 t n2).1).get? j := by
  induction t with
  | leaf ii nm ct =>
    intro n1 n2 i j hi hj _
    have hi0 : i = 0 := by simpa [leafCountT, leafIdsT] using hi
    have hj0 : j = 0 := by simpa [leafCountT, leafIdsT] using hj
    rw [hi0, hj0]
  | node ii d k l r ihl ihr =>
    intro n1 n2 i j hi hj heq
    by_cases h2 : d ≤ t2
    · rw [assignGo_node_root h2]
      simp only [leafCids_assignAll]
      rw [List.get?_eq_getElem?, List.get?_eq_getElem?]
      rw [List.getElem?_replicate, List.getElem?_replicate]
      simp [hi, hj]
    · have h1 : ¬ d ≤ t1 := fun hc => h2 (le_trans hc hle)
      rw [assignGo_node_rec h1] at heq
      rw [assignGo_node_rec h2]
      simp only [leafCids] at heq ⊢
      have hl1 : (leafCids (assignGo t1 l n1).1).length = leafCountT l :=
        leafCids_assignGo_length t1 l n1
      have hr1 : (leafCids (assignGo t1 r (assignGo t1 l n1).2).1).length =
          leafCountT r := leafCids_assignGo_length t1 r _
      have hl2 : (leafCids (assignGo t2 l n2).1).length = leafCountT l :=
        leafCids_assignGo_length t2 l n2
      have hr2 : (leafCids (assignGo t2 r (assignGo t2 l n2).2).1).length =
          leafCountT r := leafCids_assignGo_length t2 r _
      rw [leafCountT_node] at hi hj
      rcases Nat.lt_or_ge i (leafCountT l) with hil | hil
      · rcases Nat.lt_or_ge j (leafCountT l) with hjl | hjl
        · rw [List.get?_append (by omega), List.get?_append (by omega)] at heq
          rw [List.get?_append (by omega), List.get?_append (by omega)]
          exact ihl n1 n2 i j hil hjl heq
        · exfalso
          rw [List.get?_append (by omega), List.get?_append_right (by omega)] at heq
          have hxi : ∃ xi, (leafCids (assignGo t1 l n1).1).get? i = some xi :=
            ⟨_, List.get?_eq_get (by omega)⟩
          obtain ⟨xi, hxig⟩ := hxi
          have hxj : ∃ xj, (leafCids (assignGo t1 r (assignGo t1 l n1).2).1).get?
              (j - (leafCids (assignGo t1 l n1).1).length) = some xj :=
            ⟨_, List.get?_eq_get (by omega)⟩
          obtain ⟨xj, hxjg⟩ := hxj
          rw [hxig, hxjg] at heq
          obtain ⟨ci, hci, -, hci2⟩ := leafCids_assignGo_bounds t1 l n1 xi
            (List.get?_mem hxig)
          obtain ⟨cj, hcj, hcj1, -⟩ := leafCids_assignGo_bounds t1 r _ xj
            (List.get?_mem hxjg)
          have : xi = xj := by injection heq
          rw [hci, hcj] at this
          have : ci = cj := by injection this
          omega
      · rcases Nat.lt_or_ge j (leafCountT l) with hjl | hjl
        · exfalso
          rw [List.get?_append_right (by omega), List.get?_append (by omega)] at heq
          have hxi : ∃ xi, (leafCids (assignGo t1 r (assignGo t1 l n1).2).1).get?
              (i - (leafCids (assignGo t1 l n1).1).length) = some xi :=
            ⟨_, List.get?_eq_get (by omega)⟩
          obtain ⟨xi, hxig⟩ := hxi
          have hxj : ∃ xj, (leafCids (assignGo t1 l n1).1).get? j = some xj :=
            ⟨_, List.get?_eq_get (by omega)⟩
          obtain ⟨xj, hxjg⟩ := hxj
          rw [hxig, hxjg] at heq
          obtain ⟨ci, hci, hci1, -⟩ := leafCids_assignGo_bounds t1 r _ xi
            (List.get?_mem hxig)
          obtain ⟨cj, hcj, -, hcj2⟩ := leafCids_assignGo_bounds t1 l n1 xj
            (List.get?_mem hxjg)
          have : xi = xj := by injection heq
          rw [hci, hcj] at this
          have : ci = cj := by injection this
          omega
        · rw [List.get?_append_right (by omega),
            List.get?_append_right (by omega)] at heq
          rw [List.get?_append_right (by omega),
            List.get?_append_right (by omega)]
          rw [hl1] at heq
          rw [hl2]
          exact ihr (assignGo t1 l n1).2 (assignGo t2 l n2).2
            (i - leafCountT l) (j - leafCountT l) (by omega) (by omega) heq

end CoarsenLemmas

/-- C1: for any merge tree and thresholds `t1 < t2`, the leaf partition
at `t2` coarsens the one at `t1`: leaves sharing a cluster id at `t1`
still share one at `t2` (so every cluster at `t1` is contained in some
cluster at `t2`). -/
theorem assignClusters_coarsening (root : TreeNode) (t1 t2 : Rat) (hlt : t1 < t2) :
    ∀ i j,
      (leafCids (assignClusters root t1).1).get? i =
        (leafCids (assignClusters root t1).1).get? j →
      (leafCids (assignClusters root t2).1).get? i =
        (leafCids (assignClusters root t2).1).get? j := by
  intro i j heq
  have hlen1 : (leafCids (assignClusters root t1).1).length = leafCountT root :=
    leafCids_assignGo_length t1 root 0
  have hlen2 : (leafCids (assignClusters root t2).1).length = leafCountT root :=
    leafCids_assignGo_length t2 root 0
  by_cases hi : i < leafCountT root
  · by_cases hj : j < leafCountT root
    · exact leafCids_coarsen t1 t2 (le_of_lt hlt) root 0 0 i j hi hj heq
    · exfalso
      have hnone : (leafCids (assignClusters root t1).1).get? j = none :=
        List.get?_eq_none.mpr (by omega)
      have hsome : ∃ x, (leafCids (assignClusters root t1).1).get? i = some x :=
        ⟨_, List.get?_eq_get (by omega)⟩
      obtain ⟨x, hx⟩ := hsome
      rw [hx, hnone] at heq
      exact Option.noConfusion heq
  · by_cases hj : j < leafCountT root
    · exfalso
      have hnone : (leafCids (assignClusters root t1).1).get? i = none :=
        List.get?_eq_none.mpr (by omega)
      have hsome : ∃ x, (leafCids (assignClusters root t1).1).get? j = some x :=
        ⟨_, List.get?_eq_get (by omega)⟩
      obtain ⟨x, hx⟩ := hsome
      rw [hx, hnone] at heq
      exact Option.noConfusion heq
    · rw [List.get?_eq_none.mpr (by omega), List.get?_eq_none.mpr (by omega)]

/-- Witness for C1: on a 2-leaf tree with distance 1, the two leaves
share a cluster at threshold 1 and therefore also at threshold 2. -/
theorem assignClusters_coarsening_witness :
    (leafCids (assignClusters
        (.node 2 1 2 (.leaf 0 "a" none) (.leaf 1 "b" none)) 2).1).get? 0 =
      (leafCids (assignClusters
        (.node 2 1 2 (.leaf 0 "a" none) (.leaf 1 "b" none)) 2).1).get? 1 :=
  assignClusters_coarsening (.node 2 1 2 (.leaf 0 "a" none) (.leaf 1 "b" none))
    1 2 (by norm_num) 0 1 (by decide)

section BuildLemmas

theorem idTree_leaf (n : Nat) (steps : List LinkStep) (labels : List String)
    (contents : Option (List String)) (j : Nat) (hj : j < n) :
    idTree n steps labels contents j =
      .leaf j (labels.getD j "") (contents.bind fun cs => cs.get? j) := by
  unfold idTree
  simp [hj]

theorem idTree_node (n : Nat) (steps : List LinkStep) (labels : List String)
    (contents : Option (List String)) (j : Nat) (s : LinkStep) (hj : ¬ j < n)
    (hs : steps.get? (j - n) = some s) (hl : s.left < j) (hr : s.right < j) :
    idTree n steps labels contents j =
      .node j s.distance s.count (idTree n steps labels contents s.left)
        (idTree n steps labels contents s.right) := by
  conv_lhs => rw [idTree]
  rw [dif_neg hj]
  simp only [hs]
  rw [dif_pos ⟨hl, hr⟩]

theorem buildTreeGo_spec (steps : List LinkStep) (labels : List String)
    (contents : Option (List String))
    (href : ∀ i (h : i < steps.length),
      (steps.get ⟨i, h⟩).left < labels.length + i ∧
      (steps.get ⟨i, h⟩).right < labels.length + i) :
    ∀ (todo done : List LinkStep), steps = done ++ todo →
      buildTreeGo
        ((List.range (labels.length + done.length)).map
          (idTree labels.length steps labels contents)) todo =
      .ok ((List.range (labels.length + steps.length)).map
          (idTree labels.length steps labels contents)) := by
  intro todo
  induction todo with
  | nil =>
    intro done hd
    have : done.length = steps.length := by rw [hd]; simp
    rw [buildTreeGo, this]
  | cons s rest ih =>
    intro done hd
    have hi : done.length < steps.length := by rw [hd]; simp
    have hsq : steps.get? done.length = some s := by
      rw [hd, List.get?_eq_getElem?,
        List.getElem?_append_right (le_refl done.length)]
      simp
    have hsget : steps.get ⟨done.length, hi⟩ = s := by
      have h2 := List.get?_eq_get hi
      rw [hsq] at h2
      injection h2 with h3
      exact h3.symm
    obtain ⟨hl, hr⟩ := href done.length hi
    rw [hsget] at hl hr
    have hgetl : ((List.range (labels.length + done.length)).map
        (idTree labels.length steps labels contents)).get? s.left =
        some (idTree labels.length steps labels contents s.left) := by
      simp [List.getElem?_map, List.getElem?_range hl]
    have hgetr : ((List.range (labels.length + done.length)).map
        (idTree labels.length steps labels contents)).get? s.right =
        some (idTree labels.length steps labels contents s.right) := by
      simp [List.getElem?_map, List.getElem?_range hr]
    have hnew : TreeNode.node (labels.length + done.length) s.distance s.count
        (idTree labels.length steps labels contents s.left)
        (idTree labels.length steps labels contents s.right) =
        idTree labels.length steps labels contents
          (labels.length + done.length) := by
      rw [idTree_node labels.length steps labels contents
        (labels.length + done.length) s (by omega) (by simpa using hsq) hl hr]
    simp only [buildTreeGo, hgetl, hgetr]
    have hlen : ((List.range (labels.length + done.length)).map
        (idTree labels.length steps labels contents)).length =
        labels.length + done.length := by simp
    rw [hlen, hnew]
    have happ : ((List.range (labels.length + done.length)).map
        (idTree labels.length steps labels contents)) ++
        [idTree labels.length steps labels contents
          (labels.length + done.length)] =
        (List.range (labels.length + (done ++ [s]).length)).map
          (idTree labels.length steps labels contents) := by
      have h1 : labels.length + (done ++ [s]).length =
          (labels.length + done.length) + 1 := by simp; omega
      rw [h1, List.range_succ, List.map_append]
      rfl
    rw [happ]
    exact ih (done ++ [s]) (by rw [hd]; simp)

theorem buildTree_eq_idTree (steps : List LinkStep) (labels : List String)
    (contents : Option (List String))
    (href : ∀ i (h : i < steps.length),
      (steps.get ⟨i, h⟩).left < labels.length + i ∧
      (steps.get ⟨i, h⟩).right < labels.length + i)
    (hpos : 1 ≤ labels.length + steps.length) :
    buildTree steps labels contents =
      .ok (idTree labels.length steps labels contents
        (labels.length + steps.length - 1)) := by
  have hinit : initialNodes labels contents =
      (List.range (labels.length + ([] : List LinkStep).length)).map
        (idTree labels.length steps labels contents) := by
    simp only [List.length_nil, Nat.add_zero, initialNodes]
    apply List.map_congr_left
    intro j hj
    rw [idTree_leaf labels.length steps labels contents j (List.mem_range.mp hj)]
  have hgo := buildTreeGo_spec steps labels contents href steps [] (by simp)
  rw [← hinit] at hgo
  have hroot : ((List.range (labels.length + steps.length)).map
      (idTree labels.length steps labels contents)).get?
      (labels.length + steps.length - 1) =
      some (idTree labels.length steps labels contents
        (labels.length + steps.length - 1)) := by
    simp [List.getElem?_map, List.getElem?_range (show
      labels.length + steps.length - 1 < labels.length + steps.length by omega)]
  rw [buildTree, hgo]
  simp [List.getElem?_range (show
    labels.length + steps.length - 1 < labels.length + steps.length by omega)]

end BuildLemmas

section AliveLemmas

theorem childIds_append (a b : List LinkStep) :
    childIds (a ++ b) = childIds a ++ childIds b := by
  simp [childIds]

theorem childIds_take_succ (steps : List LinkStep) (i : Nat) (s : LinkStep)
    (hs : steps.get? i = some s) :
    childIds (steps.take (i + 1)) = childIds (steps.take i) ++ [s.left, s.right] := by
  rw [List.take_succ]
  rw [List.get?_eq_getElem?] at hs
  rw [hs]
  simp [childIds]

theorem childIds_length (steps : List LinkStep) :
    (childIds steps).length = 2 * steps.length := by
  induction steps with
  | nil => rfl
  | cons s rest ih => simp [childIds] at ih ⊢; omega

theorem childIds_lt (n : Nat) (steps : List LinkStep)
    (href : ∀ i (h : i < steps.length),
      (steps.get ⟨i, h⟩).left < n + i ∧ (steps.get ⟨i, h⟩).right < n + i) :
    ∀ i, ∀ x ∈ childIds (steps.take i), x < n + i := by
  intro i
  induction i with
  | zero => simp [childIds]
  | succ i ih =>
    intro x hx
    by_cases hi : i < steps.length
    · have hs : steps.get? i = some (steps.get ⟨i, hi⟩) := List.get?_eq_get hi
      rw [childIds_take_succ steps i _ hs] at hx
      rcases List.mem_append.mp hx with h | h
      · have := ih x h; omega
      · obtain ⟨h1, h2⟩ := href i hi
        simp only [List.mem_cons, List.mem_singleton, List.not_mem_nil] at h
        rcases h with h | h | h
        · omega
        · omega
        · exact absurd h (by simp)
    · have htk : steps.take (i + 1) = steps.take i := by
        rw [List.take_of_length_le (by omega), List.take_of_length_le (by omega)]
      rw [htk] at hx
      have := ih x hx
      omega

/-- The ids still alive (created, not yet consumed) after `i` merge
steps. -/
def aliveF (n : Nat) (steps : List LinkStep) (i : Nat) : Finset Nat :=
  (Finset.range (n + i)).filter fun j => j ∉ childIds (steps.take i)

theorem mem_aliveF {n : Nat} {steps : List LinkStep} {i j : Nat} :
    j ∈ aliveF n steps i ↔ j < n + i ∧ j ∉ childIds (steps.take i) := by
  simp [aliveF]

theorem consumed_fresh (steps : List LinkStep) (i : Nat) (s : LinkStep)
    (hnd : (childIds steps).Nodup) (hs : steps.get? i = some s) :
    s.left ∉ childIds (steps.take i) ∧ s.right ∉ childIds (steps.take i) ∧
      s.left ≠ s.right := by
  have hsplit : childIds steps =
      childIds (steps.take (i + 1)) ++ childIds (steps.drop (i + 1)) := by
    conv_lhs => rw [← List.take_append_drop (i + 1) steps]
    exact childIds_append _ _
  rw [hsplit] at hnd
  have hnd1 : (childIds (steps.take (i + 1))).Nodup := (List.nodup_append.mp hnd).1
  rw [childIds_take_succ steps i s hs] at hnd1
  obtain ⟨hA, hB, hdisj⟩ := List.nodup_append.mp hnd1
  refine ⟨?_, ?_, ?_⟩
  · intro hmem
    exact hdisj hmem (by simp)
  · intro hmem
    exact hdisj hmem (by simp)
  · simpa using hB

theorem step_alive (n : Nat) (steps : List LinkStep) (i : Nat) (s : LinkStep)
    (href : ∀ i (h : i < steps.length),
      (steps.get ⟨i, h⟩).left < n + i ∧ (steps.get ⟨i, h⟩).right < n + i)
    (hi : i < steps.length) (hs : steps.get? i = some s) :
    aliveF n steps (i + 1) =
      insert (n + i) (((aliveF n steps i).erase s.left).erase s.right) := by
  have hrefs : s.left < n + i ∧ s.right < n + i := by
    have h := href i hi
    have hg : steps.get ⟨i, hi⟩ = s := by
      have h2 := List.get?_eq_get hi
      rw [hs] at h2
      injection h2 with h3
      exact h3.symm
    rw [hg] at h
    exact h
  ext j
  rw [mem_aliveF, childIds_take_succ steps i s hs]
  simp only [Finset.mem_insert, Finset.mem_erase, mem_aliveF,
    List.mem_append, List.mem_cons, List.mem_singleton, List.not_mem_nil]
  constructor
  · rintro ⟨hj1, hj2⟩
    push_neg at hj2
    obtain ⟨hj2, hj3⟩ := hj2
    by_cases hje : j = n + i
    · exact Or.inl hje
    · exact Or.inr ⟨hj3.2.1, hj3.1, by omega, hj2⟩
  · rintro (hje | ⟨hjr, hjl, hj1, hj2⟩)
    · subst hje
      refine ⟨by omega, ?_⟩
      push_neg
      refine ⟨?_, by omega, by omega, not_false⟩
      intro hmem
      have := childIds_lt n steps href i _ hmem
      omega
    · exact ⟨by omega, by push_neg; exact ⟨hj2, hjl, hjr, not_false⟩⟩

end AliveLemmas

section SumLemmas

theorem sum_singletons (n : Nat) :
    (∑ j ∈ Finset.range n, ({j} : Multiset Nat)) = Multiset.range n := by
  induction n with
  | zero => simp
  | succ n ih =>
    rw [Finset.sum_range_succ, ih, Multiset.range_succ, add_comm,
      Multiset.singleton_add]

theorem childIds_lt_sharp (n : Nat) (steps : List LinkStep)
    (href : ∀ i (h : i < steps.length),
      (steps.get ⟨i, h⟩).left < n + i ∧ (steps.get ⟨i, h⟩).right < n + i) :
    ∀ i, ∀ x ∈ childIds (steps.take i), x + 1 < n + i := by
  intro i
  induction i with
  | zero => simp [childIds]
  | succ i ih =>
    intro x hx
    by_cases hi : i < steps.length
    · have hs : steps.get? i = some (steps.get ⟨i, hi⟩) := List.get?_eq_get hi
      rw [childIds_take_succ steps i _ hs] at hx
      rcases List.mem_append.mp hx with h | h
      · have := ih x h; omega
      · obtain ⟨h1, h2⟩ := href i hi
        simp only [List.mem_cons, List.mem_singleton, List.not_mem_nil] at h
        rcases h with h | h | h
        · omega
        · omega
        · exact absurd h (by simp)
    · have htk : steps.take (i + 1) = steps.take i := by
        rw [List.take_of_length_le (by omega), List.take_of_length_le (by omega)]
      rw [htk] at hx
      have := ih x hx
      omega

theorem alive_sum (n : Nat) (steps : List LinkStep) (labels : List String)
    (contents : Option (List String)) (hval : ValidLinkage n steps) :
    ∀ i, i ≤ steps.length →
      (∑ j ∈ aliveF n steps i,
        (leafIdsT (idTree n steps labels contents j) : Multiset Nat)) =
      Multiset.range n := by
  intro i
  induction i with
  | zero =>
    intro _
    have halive : aliveF n steps 0 = Finset.range n := by
      ext j; simp [aliveF, childIds]
    rw [halive]
    have hcongr : ∀ j ∈ Finset.range n,
        (leafIdsT (idTree n steps labels contents j) : Multiset Nat) = {j} := by
      intro j hj
      rw [idTree_leaf n steps labels contents j (Finset.mem_range.mp hj)]
      simp [leafIdsT]
    rw [Finset.sum_congr rfl hcongr]
    exact sum_singletons n
  | succ i ih =>
    intro hsi
    have hi : i < steps.length := by omega
    have hs : steps.get? i = some (steps.get ⟨i, hi⟩) := List.get?_eq_get hi
    obtain ⟨hrl, hrr⟩ := hval.refs i hi
    obtain ⟨hfl, hfr, hlr⟩ := consumed_fresh steps i (steps.get ⟨i, hi⟩) hval.nodup hs
    have hmeml : (steps.get ⟨i, hi⟩).left ∈ aliveF n steps i :=
      mem_aliveF.mpr ⟨hrl, hfl⟩
    have hmemr : (steps.get ⟨i, hi⟩).right ∈
        (aliveF n steps i).erase (steps.get ⟨i, hi⟩).left :=
      Finset.mem_erase.mpr ⟨Ne.symm hlr, mem_aliveF.mpr ⟨hrr, hfr⟩⟩
    have hnotin : n + i ∉ ((aliveF n steps i).erase
        (steps.get ⟨i, hi⟩).left).erase (steps.get ⟨i, hi⟩).right := by
      intro hmem
      have hm := Finset.mem_of_mem_erase (Finset.mem_of_mem_erase hmem)
      rw [mem_aliveF] at hm
      omega
    rw [step_alive n steps i (steps.get ⟨i, hi⟩) hval.refs hi hs,
      Finset.sum_insert hnotin]
    have hsplit : (leafIdsT (idTree n steps labels contents (n + i)) :
        Multiset Nat) =
        (leafIdsT (idTree n steps labels contents (steps.get ⟨i, hi⟩).left) :
          Multiset Nat) +
        (leafIdsT (idTree n steps labels contents (steps.get ⟨i, hi⟩).right) :
          Multiset Nat) := by
      rw [idTree_node n steps labels contents (n + i) (steps.get ⟨i, hi⟩)
        (by omega) (by simpa using hs) (by omega) (by omega)]
      simp [leafIdsT]
    rw [hsplit]
    have h1 := Finset.add_sum_erase (aliveF n steps i)
      (fun j => (leafIdsT (idTree n steps labels contents j) : Multiset Nat))
      hmeml
    have h2 := Finset.add_sum_erase ((aliveF n steps i).erase
        (steps.get ⟨i, hi⟩).left)
      (fun j => (leafIdsT (idTree n steps labels contents j) : Multiset Nat))
      hmemr
    rw [add_assoc, h2, h1]
    exact ih (by omega)

theorem alive_final (n : Nat) (steps : List LinkStep) (hval : ValidLinkage n steps)
    (hlen : n = steps.length + 1) :
    aliveF n steps steps.length = {n + steps.length - 1} := by
  have hcov : ∀ x, x < n + steps.length - 1 → x ∈ childIds steps := by
    have hsub : (childIds steps).toFinset ⊆ Finset.range (n + steps.length - 1) := by
      intro x hx
      rw [List.mem_toFinset] at hx
      have hx2 : x ∈ childIds (steps.take steps.length) := by
        rwa [List.take_length]
      have := childIds_lt_sharp n steps hval.refs steps.length x hx2
      rw [Finset.mem_range]
      omega
    have hcard : (childIds steps).toFinset.card = 2 * steps.length := by
      rw [List.toFinset_card_of_nodup hval.nodup, childIds_length]
    have heq : (childIds steps).toFinset = Finset.range (n + steps.length - 1) := by
      apply Finset.eq_of_subset_of_card_le hsub
      rw [hcard, Finset.card_range]
      omega
    intro x hx
    have hx2 : x ∈ Finset.range (n + steps.length - 1) := Finset.mem_range.mpr hx
    rw [← heq] at hx2
    exact List.mem_toFinset.mp hx2
  ext j
  rw [mem_aliveF, List.take_length]
  simp only [Finset.mem_singleton]
  constructor
  · rintro ⟨hj1, hj2⟩
    by_contra hne
    exact hj2 (hcov j (by omega))
  · rintro rfl
    refine ⟨by omega, ?_⟩
    intro hmem
    have hm2 : (n + steps.length - 1) ∈ childIds (steps.take steps.length) := by
      rwa [List.take_length]
    have := childIds_lt_sharp n steps hval.refs steps.length _ hm2
    omega

theorem idCount_eq_len (n : Nat) (steps : List LinkStep) (labels : List String)
    (contents : Option (List String)) (hval : ValidLinkage n steps) :
    ∀ j, j < n + steps.length →
      idCount n steps j = (leafIdsT (idTree n steps labels contents j)).length := by
  intro j
  induction j using Nat.strong_induction_on with
  | _ j ih =>
    intro hj
    by_cases hjn : j < n
    · rw [idTree_leaf n steps labels contents j hjn]
      simp [idCount, hjn, leafIdsT]
    · have hi : j - n < steps.length := by omega
      have hs : steps.get? (j - n) = some (steps.get ⟨j - n, hi⟩) :=
        List.get?_eq_get hi
      obtain ⟨hrl, hrr⟩ := hval.refs (j - n) hi
      have hl : (steps.get ⟨j - n, hi⟩).left < j := by omega
      have hr : (steps.get ⟨j - n, hi⟩).right < j := by omega
      rw [idTree_node n steps labels contents j (steps.get ⟨j - n, hi⟩) hjn hs hl hr]
      have hcount := hval.counts (j - n) hi
      have hs2 : steps[j - n]? = some (steps.get ⟨j - n, hi⟩) := by simpa using hs
      have hidj : idCount n steps j = (steps.get ⟨j - n, hi⟩).count := by
        simp [idCount, hjn, hs2]
      rw [hidj, hcount]
      simp only [leafIdsT, List.length_append]
      rw [ih _ hl (by omega), ih _ hr (by omega)]

theorem countField_idTree (n : Nat) (steps : List LinkStep) (labels : List String)
    (contents : Option (List String))
    (href : ∀ i (h : i < steps.length),
      (steps.get ⟨i, h⟩).left < n + i ∧ (steps.get ⟨i, h⟩).right < n + i)
    (j : Nat) (hj : j < n + steps.length) :
    (idTree n steps labels contents j).countField = idCount n steps j := by
  by_cases hjn : j < n
  · rw [idTree_leaf n steps labels contents j hjn]
    simp [TreeNode.countField, idCount, hjn]
  · have hi : j - n < steps.length := by omega
    have hs : steps.get? (j - n) = some (steps.get ⟨j - n, hi⟩) :=
      List.get?_eq_get hi
    obtain ⟨hrl, hrr⟩ := href (j - n) hi
    rw [idTree_node n steps labels contents j (steps.get ⟨j - n, hi⟩) hjn hs
      (by omega) (by omega)]
    have hs2 : steps[j - n]? = some (steps.get ⟨j - n, hi⟩) := by simpa using hs
    simp [TreeNode.countField, idCount, hjn, hs2]

theorem internalCountT_add_one (t : TreeNode) :
    internalCountT t + 1 = leafCountT t := by
  induction t with
  | leaf i nm ct => simp [internalCountT, leafCountT, leafIdsT]
  | node i d k l r ihl ihr =>
    simp only [internalCountT, leafCountT, leafIdsT, List.length_append] at ihl ihr ⊢
    omega

end SumLemmas

/-- C2: for a valid agglomerative linkage of length `n - 1` over `n`
labels, `buildTree` returns a root from which exactly `n` leaf positions
(the leaves `0 .. n-1`, each once) and `n - 1` internal positions are
reachable, and whose `count` field equals `n`. -/
theorem buildTree_shape (linkage : List LinkStep) (labels : List String)
    (contents : Option (List String))
    (hlen : labels.length = linkage.length + 1)
    (hval : ValidLinkage labels.length linkage) :
    ∃ root, buildTree linkage labels contents = .ok root ∧
      leafCountT root = labels.length ∧
      internalCountT root = linkage.length ∧
      root.countField = labels.length ∧
      (leafIdsT root : Multiset Nat) = Multiset.range labels.length := by
  have hbt := buildTree_eq_idTree linkage labels contents hval.refs (by omega)
  have hsum := alive_sum labels.length linkage labels contents hval
    linkage.length (le_refl _)
  rw [alive_final labels.length linkage hval hlen, Finset.sum_singleton] at hsum
  have hleaf : leafCountT (idTree labels.length linkage labels contents
      (labels.length + linkage.length - 1)) = labels.length := by
    have hc := congrArg Multiset.card hsum
    rw [Multiset.coe_card, Multiset.card_range] at hc
    exact hc
  refine ⟨_, hbt, hleaf, ?_, ?_, hsum⟩
  · have := internalCountT_add_one (idTree labels.length linkage labels contents
      (labels.length + linkage.length - 1))
    omega
  · rw [countField_idTree labels.length linkage labels contents hval.refs _
      (by omega), idCount_eq_len labels.length linkage labels contents
      hval _ (by omega)]
    exact hleaf

/-- Witness for C2 on a concrete valid 2-step linkage over 3 labels. -/
theorem buildTree_shape_witness :
    ∃ root, buildTree [⟨0, 1, 1, 2⟩, ⟨2, 3, 2, 3⟩] ["a", "b", "c"] none =
        .ok root ∧
      leafCountT root = 3 ∧ internalCountT root = 2 ∧
      root.countField = 3 ∧ (leafIdsT root : Multiset Nat) = Multiset.range 3 :=
  buildTree_shape [⟨0, 1, 1, 2⟩, ⟨2, 3, 2, 3⟩] ["a", "b", "c"] none (by decide)
    ⟨by decide, by decide, by decide⟩
